import Mathlib

/-!
Verification development for the z.ai2api_deno protocol-translation server.

The TypeScript sources (src/app/utils/tools.ts, the openai router, the model
mapper and the model fetcher) are shallowly embedded below.  Strings are
modelled as Lean `String`/`List Char`; JavaScript `JSON.parse`/`JSON.stringify`
are modelled by an executable JSON value type and a fuel-bounded recursive
descent reader (JSON numbers are modelled as integers; fractional and exponent
forms are rejected by the model, which is the only deliberate narrowing).
JavaScript truthiness, the `||` default idiom, `Date.now()` and the config
object are made explicit parameters.  Functions that can throw in JS are
embedded in `Except`.
-/

namespace ZAI

/-- JavaScript-style `||` on an optional string: first operand wins when it is
truthy (present and non-empty). -/
def jsOrStr (o : Option String) (d : String) : String :=
  match o with
  | some s => if s = "" then d else s
  | none => d

/-- The whitespace class used by the JS regexes (`\s`) and `String.trim`;
modelled by the ASCII whitespace characters. -/
def jsWsChar (c : Char) : Bool :=
  decide (c = ' ' ∨ c = '\t' ∨ c = '\n' ∨ c = '\r' ∨ c = '\x0b' ∨ c = '\x0c')

/-- JSON's own whitespace class (space, tab, line feed, carriage return). -/
def jsonWsChar (c : Char) : Bool :=
  decide (c = ' ' ∨ c = '\t' ∨ c = '\n' ∨ c = '\r')

/-- `String.prototype.trim` on a character list. -/
def jsTrim (l : List Char) : List Char :=
  (((l.dropWhile jsWsChar).reverse).dropWhile jsWsChar).reverse

/-- `String.prototype.trim`. -/
def jsTrimS (s : String) : String := ⟨jsTrim s.data⟩

/-- Strip an expected prefix from a character list, returning the remainder. -/
def stripPfx : List Char → List Char → Option (List Char)
  | [], l => some l
  | _ :: _, [] => none
  | p :: ps, c :: cs => if c = p then stripPfx ps cs else none

theorem stripPfx_eq {p l r : List Char} (h : stripPfx p l = some r) : l = p ++ r := by
  induction p generalizing l with
  | nil =>
    have : l = r := by simpa [stripPfx] using h
    simp [this]
  | cons x xs ih =>
    cases l with
    | nil => simp [stripPfx] at h
    | cons c cs =>
      by_cases hc : c = x
      · simp only [stripPfx, if_pos hc] at h
        simpa [hc] using ih h
      · simp [stripPfx, hc] at h

/-- JSON values as produced by `JSON.parse` (numbers restricted to integers). -/
inductive JVal where
  | null : JVal
  | bool (b : Bool) : JVal
  | num (n : Int) : JVal
  | str (s : String) : JVal
  | arr (xs : List JVal) : JVal
  | obj (fields : List (String × JVal)) : JVal

/-- Look a key up in a JS-object field list (fields are duplicate-free by
construction, matching JS object semantics). -/
def recLookup {α : Type} : List (String × α) → String → Option α
  | [], _ => none
  | (k', v) :: rest, k => if k' = k then some v else recLookup rest k

/-- JS `obj[k] = v`: replace the value at an existing key (keeping its
position) or append a fresh binding. -/
def recInsert {α : Type} : List (String × α) → String → α → List (String × α)
  | [], k, v => [(k, v)]
  | (k', v') :: rest, k, v =>
    if k' = k then (k', v) :: rest else (k', v') :: recInsert rest k v

theorem recLookup_recInsert_self {α : Type} (l : List (String × α)) (k : String) (v : α) :
    recLookup (recInsert l k v) k = some v := by
  induction l with
  | nil => simp [recInsert, recLookup]
  | cons p rest ih =>
    obtain ⟨a, b⟩ := p
    by_cases hk : a = k
    · simp [recInsert, recLookup, hk]
    · simpa [recInsert, recLookup, hk] using ih

theorem recLookup_recInsert_ne {α : Type} (l : List (String × α)) (k k' : String) (v : α)
    (h : k ≠ k') : recLookup (recInsert l k v) k' = recLookup l k' := by
  induction l with
  | nil => simp [recInsert, recLookup, h]
  | cons p rest ih =>
    obtain ⟨a, b⟩ := p
    by_cases hk : a = k
    · simp [recInsert, recLookup, hk, h]
    · by_cases hk' : a = k'
      · have hne : ¬k' = k := fun e => hk (hk'.trans e)
        simp [recInsert, recLookup, hk, hk', hne]
      · simpa [recInsert, recLookup, hk, hk'] using ih

theorem mem_recInsert {α : Type} {l : List (String × α)} {k : String} {v : α} {p : String × α}
    (h : p ∈ recInsert l k v) : p ∈ l ∨ p.1 = k := by
  induction l with
  | nil =>
    simp only [recInsert, List.mem_singleton] at h
    right; simp [h]
  | cons q rest ih =>
    obtain ⟨a, b⟩ := q
    by_cases hk : a = k
    · simp only [recInsert, if_pos hk] at h
      rcases List.mem_cons.mp h with h | h
      · right; simp [h, hk]
      · left; exact List.mem_cons_of_mem _ h
    · simp only [recInsert, if_neg hk] at h
      rcases List.mem_cons.mp h with h | h
      · left; exact h ▸ List.mem_cons_self _ _
      · rcases ih h with h' | h'
        · left; exact List.mem_cons_of_mem _ h'
        · right; exact h'

/-- Drop leading JSON whitespace. -/
def dropJsonWs (l : List Char) : List Char := l.dropWhile jsonWsChar

/-- Value of an ASCII hex digit. -/
def hexVal (c : Char) : Option Nat :=
  if c.isDigit then some (c.toNat - 48)
  else if 'a' ≤ c ∧ c ≤ 'f' then some (c.toNat - 87)
  else if 'A' ≤ c ∧ c ≤ 'F' then some (c.toNat - 55)
  else none

/-- Read the body of a JSON string literal (after the opening quote), decoding
escapes, up to and through the closing quote.  Unescaped control characters
are rejected, as `JSON.parse` does. -/
def parseStrChars : Nat → List Char → Option (List Char × List Char)
  | 0, _ => none
  | _, [] => none
  | fuel + 1, c :: rest =>
    if c = '"' then some ([], rest)
    else if c = '\\' then
      match rest with
      | [] => none
      | e :: rest2 =>
        let dec : Option (Char × List Char) :=
          if e = '"' then some ('"', rest2)
          else if e = '\\' then some ('\\', rest2)
          else if e = '/' then some ('/', rest2)
          else if e = 'b' then some ('\x08', rest2)
          else if e = 'f' then some ('\x0c', rest2)
          else if e = 'n' then some ('\n', rest2)
          else if e = 'r' then some ('\r', rest2)
          else if e = 't' then some ('\t', rest2)
          else if e = 'u' then
            match rest2 with
            | h1 :: h2 :: h3 :: h4 :: rest3 =>
              match hexVal h1, hexVal h2, hexVal h3, hexVal h4 with
              | some a, some b, some c', some d =>
                some (Char.ofNat (((a * 16 + b) * 16 + c') * 16 + d), rest3)
              | _, _, _, _ => none
            | _ => none
          else none
        match dec with
        | some (ch, r) =>
          match parseStrChars fuel r with
          | some (cs, r2) => some (ch :: cs, r2)
          | none => none
        | none => none
    else if c.toNat < 32 then none
    else
      match parseStrChars fuel rest with
      | some (cs, r2) => some (c :: cs, r2)
      | none => none

/-- Digits to a natural number. -/
def digitsToNat (l : List Char) : Nat :=
  l.foldl (fun acc c => acc * 10 + (c.toNat - 48)) 0

/-- Read a JSON number.  The model covers the integer forms; fractional and
exponent forms are rejected (a deliberate narrowing of the model). -/
def parseNum (l : List Char) : Option (Int × List Char) :=
  let sgn : Bool × List Char :=
    match l with
    | '-' :: r => (true, r)
    | _ => (false, l)
  let ds := sgn.2.takeWhile Char.isDigit
  let rest := sgn.2.dropWhile Char.isDigit
  if ds = [] then none
  else if ds.length > 1 ∧ ds.head? = some '0' then none
  else
    match rest with
    | '.' :: _ => none
    | 'e' :: _ => none
    | 'E' :: _ => none
    | _ => some (if sgn.1 then -(digitsToNat ds : Int) else (digitsToNat ds : Int), rest)

mutual

/-- Read one JSON value (no leading whitespace). -/
def parseJVal : Nat → List Char → Option (JVal × List Char)
  | 0, _ => none
  | fuel + 1, l =>
    match l with
    | [] => none
    | c :: rest =>
      if c = 'n' then
        match stripPfx "null".data l with
        | some r => some (.null, r)
        | none => none
      else if c = 't' then
        match stripPfx "true".data l with
        | some r => some (.bool true, r)
        | none => none
      else if c = 'f' then
        match stripPfx "false".data l with
        | some r => some (.bool false, r)
        | none => none
      else if c = '"' then
        match parseStrChars fuel rest with
        | some (cs, r) => some (.str ⟨cs⟩, r)
        | none => none
      else if c = '[' then
        match parseArrItems fuel [] true rest with
        | some (xs, r) => some (.arr xs, r)
        | none => none
      else if c = '\x7b' then
        match parseObjItems fuel [] true rest with
        | some (fs, r) => some (.obj fs, r)
        | none => none
      else if c = '-' ∨ c.isDigit then
        match parseNum l with
        | some (n, r) => some (.num n, r)
        | none => none
      else none

/-- Read array elements after `[`; `allowClose` is true when `]` may come
next (start of the array, so that a trailing comma is rejected). -/
def parseArrItems : Nat → List JVal → Bool → List Char → Option (List JVal × List Char)
  | 0, _, _, _ => none
  | fuel + 1, acc, allowClose, l =>
    match dropJsonWs l with
    | ']' :: r => if allowClose then some (acc, r) else none
    | l1 =>
      match parseJVal fuel l1 with
      | some (v, r) =>
        match dropJsonWs r with
        | ',' :: r2 => parseArrItems fuel (acc ++ [v]) false r2
        | ']' :: r2 => some (acc ++ [v], r2)
        | _ => none
      | none => none

/-- Read object members after the opening brace; keys assign left to right
with JS overwrite semantics (`recInsert`). -/
def parseObjItems : Nat → List (String × JVal) → Bool → List Char →
    Option (List (String × JVal) × List Char)
  | 0, _, _, _ => none
  | fuel + 1, acc, allowClose, l =>
    match dropJsonWs l with
    | '\x7d' :: r => if allowClose then some (acc, r) else none
    | '"' :: r =>
      match parseStrChars fuel r with
      | some (kcs, r2) =>
        match dropJsonWs r2 with
        | ':' :: r3 =>
          match parseJVal fuel (dropJsonWs r3) with
          | some (v, r4) =>
            match dropJsonWs r4 with
            | ',' :: r5 => parseObjItems fuel (recInsert acc ⟨kcs⟩ v) false r5
            | '\x7d' :: r5 => some (recInsert acc ⟨kcs⟩ v, r5)
            | _ => none
          | none => none
        | _ => none
      | none => none
    | _ => none

end

/-- `JSON.parse` on a character list: one value surrounded by whitespace.
Returns `none` where `JSON.parse` throws. -/
def jsonParse (l : List Char) : Option JVal :=
  match parseJVal (l.length + 1) (dropJsonWs l) with
  | some (v, r) => if dropJsonWs r = [] then some v else none
  | none => none

/-- Hex digit character (lowercase), for `\u00xx` escapes. -/
def hexDigit (n : Nat) : Char :=
  if n < 10 then Char.ofNat (48 + n) else Char.ofNat (87 + n)

/-- Escape one character as `JSON.stringify` does. -/
def escJChar (c : Char) : List Char :=
  if c = '"' then ['\\', '"']
  else if c = '\\' then ['\\', '\\']
  else if c = '\n' then ['\\', 'n']
  else if c = '\r' then ['\\', 'r']
  else if c = '\t' then ['\\', 't']
  else if c = '\x08' then ['\\', 'b']
  else if c = '\x0c' then ['\\', 'f']
  else if c.toNat < 32 then
    '\\' :: 'u' :: [hexDigit (c.toNat / 4096 % 16), hexDigit (c.toNat / 256 % 16),
      hexDigit (c.toNat / 16 % 16), hexDigit (c.toNat % 16)]
  else [c]

/-- Serialize a string as a JSON string literal. -/
def quoteJString (s : String) : String :=
  ⟨'"' :: s.data.foldr (fun c acc => escJChar c ++ acc) ['"']⟩

mutual

/-- `JSON.stringify` (compact form, no spacing), on the JSON model. -/
def stringifyJVal : JVal → String
  | .null => "null"
  | .bool true => "true"
  | .bool false => "false"
  | .num n => toString n
  | .str s => quoteJString s
  | .arr xs => "[" ++ stringifyArr xs ++ "]"
  | .obj fs => "\x7b" ++ stringifyObj fs ++ "\x7d"

/-- Comma-joined serialization of array elements. -/
def stringifyArr : List JVal → String
  | [] => ""
  | [x] => stringifyJVal x
  | x :: y :: xs => stringifyJVal x ++ "," ++ stringifyArr (y :: xs)

/-- Comma-joined serialization of object members. -/
def stringifyObj : List (String × JVal) → String
  | [] => ""
  | [(k, v)] => quoteJString k ++ ":" ++ stringifyJVal v
  | (k, v) :: f :: fs => quoteJString k ++ ":" ++ stringifyJVal v ++ "," ++ stringifyObj (f :: fs)

end

/-- JavaScript truthiness of a JSON value. -/
def truthy : JVal → Bool
  | .null => false
  | .bool b => b
  | .num n => decide (n ≠ 0)
  | .str s => decide (s ≠ "")
  | .arr _ => true
  | .obj _ => true

/-- Is the value a string (`typeof x === "string"`). -/
def isStrJ : JVal → Bool
  | .str _ => true
  | _ => false

/-- JS property access `v[k]`: `undefined` (`none`) unless `v` is an object
with the key. -/
def jsGet (v : JVal) (k : String) : Option JVal :=
  match v with
  | .obj fs => recLookup fs k
  | _ => none

/-- The JS `in` operator on a parsed object (all scanned candidates start
with a brace, so the operand is always an object). -/
def hasKeyB (v : JVal) (k : String) : Bool :=
  (jsGet v k).isSome

/-- JS assignment `v[k] = nv` on an object value. -/
def objSetKey (v : JVal) (k : String) (nv : JVal) : JVal :=
  match v with
  | .obj fs => .obj (recInsert fs k nv)
  | x => x

/-! ### The brace-balance scanner of tools.ts (attempt 2 of
`extractToolInvocations`, and step 2 of `removeToolJsonContent`). -/

/-- One step of the scanner state `(braceCount, inString, escapeNext)`,
exactly as the inner `while` loop of tools.ts updates it. -/
def scanStep (c : Char) (bc : Nat) (inStr esc : Bool) : Nat × Bool × Bool :=
  if esc then (bc, inStr, false)
  else if c = '\\' then (bc, inStr, true)
  else if c = '"' then (bc, !inStr, false)
  else if !inStr then
    (if c = '\x7b' then (bc + 1, inStr, false)
     else if c = '\x7d' then (bc - 1, inStr, false)
     else (bc, inStr, false))
  else (bc, inStr, false)

/-- Scan forward from just after an opening brace (`braceCount` starts at 1)
until the count returns to zero; yields the consumed characters (through the
closing brace) and the remainder, or `none` if the input ends first. -/
def scanToClose : List Char → Nat → Bool → Bool → Option (List Char × List Char)
  | [], _, _, _ => none
  | c :: rest, bc, inStr, esc =>
    let s := scanStep c bc inStr esc
    if s.1 = 0 then some ([c], rest)
    else
      match scanToClose rest s.1 s.2.1 s.2.2 with
      | some (a, r) => some (c :: a, r)
      | none => none

theorem scanToClose_eq {l a r : List Char} {bc : Nat} {inStr esc : Bool}
    (h : scanToClose l bc inStr esc = some (a, r)) : l = a ++ r := by
  induction l generalizing bc inStr esc a r with
  | nil => simp [scanToClose] at h
  | cons c rest ih =>
    by_cases hz : (scanStep c bc inStr esc).1 = 0
    · simp only [scanToClose, if_pos hz] at h
      obtain ⟨ha, hr⟩ := by simpa using h
      simp [← ha, ← hr]
    · simp only [scanToClose, if_neg hz] at h
      cases hrec : scanToClose rest (scanStep c bc inStr esc).1
          (scanStep c bc inStr esc).2.1 (scanStep c bc inStr esc).2.2 with
      | none => rw [hrec] at h; simp at h
      | some p =>
        rw [hrec] at h
        obtain ⟨a', r'⟩ := p
        obtain ⟨ha, hr⟩ := by simpa using h
        have := ih hrec
        simp [← ha, ← hr, this]

theorem scanToClose_ext {l a r : List Char} {bc : Nat} {inStr esc : Bool}
    (ext : List Char) (h : scanToClose l bc inStr esc = some (a, r)) :
    scanToClose (l ++ ext) bc inStr esc = some (a, r ++ ext) := by
  induction l generalizing bc inStr esc a r with
  | nil => simp [scanToClose] at h
  | cons c rest ih =>
    by_cases hz : (scanStep c bc inStr esc).1 = 0
    · simp only [scanToClose, if_pos hz] at h ⊢
      obtain ⟨ha, hr⟩ := by simpa using h
      simp [← ha, ← hr]
    · simp only [scanToClose, if_neg hz] at h ⊢
      cases hrec : scanToClose rest (scanStep c bc inStr esc).1
          (scanStep c bc inStr esc).2.1 (scanStep c bc inStr esc).2.2 with
      | none => rw [hrec] at h; simp at h
      | some p =>
        rw [hrec] at h
        obtain ⟨a', r'⟩ := p
        obtain ⟨ha, hr⟩ := by simpa using h
        simp only [List.append_eq]
        rw [ih hrec]
        simp [← ha, ← hr]

/-! ### Tool-call argument normalization (shared by attempts 1 and 2). -/

/-- The per-entry normalization loop body of `extractToolInvocations`:
`if (tc.function)` then `if (func.arguments)` then JSON-encode any value whose
`typeof` is not `"string"` (the truthiness guards are the JS ones). -/
def normTc (tc : JVal) : JVal :=
  match jsGet tc "function" with
  | some f =>
    if truthy f then
      match jsGet f "arguments" with
      | some a =>
        if truthy a then
          if isStrJ a then tc
          else objSetKey tc "function" (objSetKey f "arguments" (.str (stringifyJVal a)))
        else tc
      | none => tc
    else tc
  | none => tc

/-- `parsedData.tool_calls` followed by the
`if (toolCalls && Array.isArray(toolCalls))` guard, returning the normalized
array on success. -/
def tryToolCallsOf (v : JVal) : Option (List JVal) :=
  match jsGet v "tool_calls" with
  | some (.arr xs) => some (xs.map normTc)
  | _ => none

/-! ### The fenced-block pattern (the literal regex from tools.ts, with
lazy `.*?` semantics hand-compiled for this concrete pattern). -/

/-- The three backticks of a code fence. -/
def fenceTicks : List Char := ['\x60', '\x60', '\x60']

/-- The opening of a json code fence. -/
def fenceOpenPat : List Char := fenceTicks ++ ['j', 's', 'o', 'n']

/-- Lazy scan for the end of the fenced capture group: the first closing
brace that is followed by whitespace and the closing fence.  Returns the body
(through that brace), the consumed tail of the match, and the remainder. -/
def fenceClose : List Char → Option (List Char × List Char × List Char)
  | [] => none
  | c :: rest =>
    if c = '\x7d' then
      match stripPfx fenceTicks (rest.dropWhile jsWsChar) with
      | some after => some ([c], rest.takeWhile jsWsChar ++ fenceTicks, after)
      | none =>
        match fenceClose rest with
        | some (b, t, a) => some (c :: b, t, a)
        | none => none
    else
      match fenceClose rest with
      | some (b, t, a) => some (c :: b, t, a)
      | none => none

/-- Try the fence regex at this exact position: returns
(whole match, capture group `{...}`, remainder) on success. -/
def tryFenceAt (l : List Char) : Option (List Char × List Char × List Char) :=
  match stripPfx fenceOpenPat l with
  | none => none
  | some r1 =>
    match r1.dropWhile jsWsChar with
    | '\x7b' :: r3 =>
      match fenceClose r3 with
      | some (body, tailPart, after) =>
        some (fenceOpenPat ++ r1.takeWhile jsWsChar ++ '\x7b' :: body ++ tailPart,
          '\x7b' :: body, after)
      | none => none
    | _ => none

/-- `matchAll` with the fence pattern: capture groups of successive
non-overlapping leftmost matches.  The fuel is the input length, consumed one
unit per scan position. -/
def fenceMatches : Nat → List Char → List (List Char)
  | 0, _ => []
  | _, [] => []
  | fuel + 1, c :: rest =>
    match tryFenceAt (c :: rest) with
    | some (_, content, after) => content :: fenceMatches fuel after
    | none => fenceMatches fuel rest

/-- Attempt 1 of `extractToolInvocations`: parse each fenced candidate; the
first one carrying a `tool_calls` array wins; parse failures are swallowed. -/
def firstFenceHit : List (List Char) → Option (List JVal)
  | [] => none
  | cand :: rest =>
    match jsonParse cand with
    | some v =>
      match tryToolCallsOf v with
      | some tcs => some tcs
      | none => firstFenceHit rest
    | none => firstFenceHit rest

/-- Attempt 2 of `extractToolInvocations`: the inline brace-balance scan.
On a balanced candidate that parses and carries a `tool_calls` array, return
it; otherwise move one character forward (`i++` in the source). -/
def inlineExtract : Nat → List Char → Option (List JVal)
  | 0, _ => none
  | _, [] => none
  | fuel + 1, c :: rest =>
    if c = '\x7b' then
      match scanToClose rest 1 false false with
      | some (body, _) =>
        match jsonParse (c :: body) with
        | some v =>
          match tryToolCallsOf v with
          | some tcs => some tcs
          | none => inlineExtract fuel rest
        | none => inlineExtract fuel rest
      | none => inlineExtract fuel rest
    else inlineExtract fuel rest

/-! ### The natural-language pattern
`调用函数\s*[：:]\s*([\w\-\.]+)\s*(?:参数|arguments)[：:]\s*(\{.*?\})` (global,
dotall), hand-compiled with the regex's greedy/lazy/backtracking behaviour. -/

/-- The character class `[\w\-\.]` (ASCII word characters, dash, dot). -/
def isWordChar (c : Char) : Bool :=
  c.isAlphanum || c = '_' || c = '-' || c = '.'

/-- A fullwidth or ASCII colon (`[：:]`). -/
def isCnColon (c : Char) : Bool := decide (c = '：' ∨ c = ':')

/-- Lazy `(\{.*?\})` with nothing after it: the group ends at the first
closing brace.  Returns the consumed characters after the opening brace and
the remainder. -/
def takeToBrace : List Char → Option (List Char × List Char)
  | [] => none
  | c :: rest =>
    if c = '\x7d' then some ([c], rest)
    else
      match takeToBrace rest with
      | some (a, r) => some (c :: a, r)
      | none => none

/-- Match `\s*(?:参数|arguments)[：:]\s*(\{.*?\})` from this position;
returns (consumed characters, remainder). -/
def matchTail (rest : List Char) : Option (List Char × List Char) :=
  let w3 := rest.takeWhile jsWsChar
  let r5 := rest.dropWhile jsWsChar
  let kwr : Option (List Char × List Char) :=
    match stripPfx "参数".data r5 with
    | some r => some ("参数".data, r)
    | none =>
      match stripPfx "arguments".data r5 with
      | some r => some ("arguments".data, r)
      | none => none
  match kwr with
  | none => none
  | some (kw, r6) =>
    match r6 with
    | [] => none
    | c2 :: r7 =>
      if isCnColon c2 then
        let w4 := r7.takeWhile jsWsChar
        match r7.dropWhile jsWsChar with
        | '\x7b' :: r9 =>
          match takeToBrace r9 with
          | some (body, r10) => some (w3 ++ kw ++ [c2] ++ w4 ++ '\x7b' :: body, r10)
          | none => none
        | _ => none
      else none

/-- Greedy `([\w\-\.]+)` with backtracking: try the longest name first and
shrink until the tail of the pattern matches. -/
def tryNameK : Nat → List Char → List Char → Option (List Char × List Char)
  | 0, _, _ => none
  | k + 1, nameRun, afterRun =>
    match matchTail (nameRun.drop (k + 1) ++ afterRun) with
    | some (consumed, r) => some (nameRun.take (k + 1) ++ consumed, r)
    | none => tryNameK k nameRun afterRun

/-- Try the whole pattern at this exact position; on success returns the full
match text and the remainder (the regex engine resumes after the match). -/
def matchFCPAt (l : List Char) : Option (List Char × List Char) :=
  match stripPfx "调用函数".data l with
  | none => none
  | some r1 =>
    let w1 := r1.takeWhile jsWsChar
    match r1.dropWhile jsWsChar with
    | [] => none
    | c :: r3 =>
      if isCnColon c then
        let w2 := r3.takeWhile jsWsChar
        let r4 := r3.dropWhile jsWsChar
        let nameRun := r4.takeWhile isWordChar
        let afterRun := r4.dropWhile isWordChar
        match tryNameK nameRun.length nameRun afterRun with
        | some (nameAndTail, r) =>
          some ("调用函数".data ++ w1 ++ [c] ++ w2 ++ nameAndTail, r)
        | none => none
      else none

/-- `String.match` with the global flag: the list of FULL match strings (no
capture groups — this is the JS behaviour that matters for the fallback). -/
def fcpSearch : Nat → List Char → List (List Char)
  | 0, _ => []
  | _, [] => []
  | fuel + 1, c :: rest =>
    match matchFCPAt (c :: rest) with
    | some (full, r) => full :: fcpSearch fuel r
    | none => fcpSearch fuel rest

/-! ### extractToolInvocations and removeToolJsonContent. -/

/-- The process configuration fields the embedded code reads (the config
module itself is outside the translated core, so it is a parameter). -/
structure Config where
  TOOL_SUPPORT : Bool
  SCAN_LIMIT : Nat
  PRIMARY_MODEL : String
  THINKING_MODEL : String
  SEARCH_MODEL : String
  AIR_MODEL : String
  PRIMARY_MODEL_NEW : String
  THINKING_MODEL_NEW : String
  SEARCH_MODEL_NEW : String

/-- `extractToolInvocations` from tools.ts.  `now` stands for `Date.now()`.
The result is `Except`: `.error` marks an uncaught JS exception escaping the
function, `.ok none` is the explicit `null`, `.ok (some tcs)` a found list.
The natural-language fallback reads `naturalLangMatch[1]` and
`naturalLangMatch[2]` from the full-match array that `String.match` returns
for a global regex; a missing index is `undefined` and calling `.trim()` on
it throws a TypeError outside every try/catch of the function. -/
def extractToolInvocations (cfg : Config) (now : Int) (text : String) :
    Except String (Option (List JVal)) :=
  if text = "" then .ok none
  else
    let scannable := text.data.take cfg.SCAN_LIMIT
    match firstFenceHit (fenceMatches (scannable.length + 1) scannable) with
    | some tcs => .ok (some tcs)
    | none =>
      match inlineExtract (scannable.length + 1) scannable with
      | some tcs => .ok (some tcs)
      | none =>
        match fcpSearch (scannable.length + 1) scannable with
        | [] => .ok none
        | ms =>
          match ms[1]? with
          | none => .error "TypeError: undefined has no method trim"
          | some m1 =>
            match ms[2]? with
            | none => .error "TypeError: undefined has no method trim"
            | some m2 =>
              match jsonParse (jsTrim m2) with
              | some _ =>
                .ok (some [.obj [("id", .str ("call_" ++ toString (now * 1000000))),
                  ("type", .str "function"),
                  ("function", .obj [("name", .str ⟨jsTrim m1⟩),
                    ("arguments", .str ⟨jsTrim m2⟩)])]])
              | none => .ok none

/-- Step 1 of `removeToolJsonContent`: `text.replace(FENCE_PATTERN, fn)` where
the replacer deletes a fenced block exactly when its capture parses and has a
top-level `tool_calls` key, and otherwise keeps the match verbatim. -/
def fenceStrip : Nat → List Char → List Char
  | 0, l => l
  | _, [] => []
  | fuel + 1, c :: rest =>
    match tryFenceAt (c :: rest) with
    | some (full, content, after) =>
      (match jsonParse content with
       | some v => if hasKeyB v "tool_calls" then fenceStrip fuel after
                   else full ++ fenceStrip fuel after
       | none => full ++ fenceStrip fuel after)
    | none => c :: fenceStrip fuel rest

/-- Step 2 of `removeToolJsonContent`: the inline brace-balance sweep that
skips balanced objects with a top-level `tool_calls` key and copies every
other character (rescanning from `i+1` after a rejected candidate). -/
def inlineRemove : Nat → List Char → List Char
  | 0, l => l
  | _, [] => []
  | fuel + 1, c :: rest =>
    if c = '\x7b' then
      match scanToClose rest 1 false false with
      | some (body, after) =>
        match jsonParse (c :: body) with
        | some v =>
          if hasKeyB v "tool_calls" then inlineRemove fuel after
          else c :: inlineRemove fuel rest
        | none => c :: inlineRemove fuel rest
      | none => c :: inlineRemove fuel rest
    else c :: inlineRemove fuel rest

/-- `removeToolJsonContent` from tools.ts: fence pass, inline pass, trim. -/
def removeToolJsonContent (text : String) : String :=
  let cleaned := fenceStrip (text.data.length + 1) text.data
  ⟨jsTrim (inlineRemove (cleaned.length + 1) cleaned)⟩

/-! ### Messages and the Message Preprocessor (tools.ts). -/

/-- One entry of a structured content array (only `"text"`-typed parts and
plain strings are meaningful to `contentToString`). -/
inductive CPart where
  | pstr (s : String) : CPart
  | pobj (ty : String) (text : Option String) : CPart
  | pother : CPart

/-- The duck-typed `content` field: a plain string, an array of parts, or
anything else (including null/undefined), which stringifies to `""`. -/
inductive CVal where
  | cstr (s : String) : CVal
  | carr (parts : List CPart) : CVal
  | cnull : CVal

/-- A chat message (`role`, `content`, the tool message's `name`, and the
`reasoning_content` carried through by the router). -/
structure Message where
  role : String
  content : CVal
  name : Option String := none
  reasoning_content : Option String := none

/-- `contentToString` from tools.ts (the `m.content || ""` guard at the call
sites is absorbed: the falsy contents `""` and null already map to `""`). -/
def contentToString : CVal → String
  | .cstr s => s
  | .carr ps =>
    String.intercalate " " (ps.foldr (fun p acc =>
      match p with
      | .pobj ty t => if ty = "text" then jsOrStr t "" :: acc else acc
      | .pstr s => s :: acc
      | .pother => acc) [])
  | .cnull => ""

/-- Substring search (JS `String.prototype.includes`) on character lists. -/
def listHasInfix (sub : List Char) : List Char → Bool
  | [] => (stripPfx sub ([] : List Char)).isSome
  | c :: rest => (stripPfx sub (c :: rest)).isSome || listHasInfix sub rest

/-- `s.includes(sub)`. -/
def strIncludes (s sub : String) : Bool := listHasInfix sub.data s.data

/-- A tool function's parameter descriptor (`properties` entries). -/
structure ParamDetail where
  type : Option String := none
  description : Option String := none

/-- The `parameters` object of a tool function. -/
structure ToolParams where
  type : String := "object"
  properties : Option (List (String × ParamDetail)) := none
  required : Option (List String) := none

/-- A tool's `function` member. -/
structure ToolFunction where
  name : String
  description : Option String := none
  parameters : Option ToolParams := none

/-- An OpenAI tool declaration. -/
structure Tool where
  type : String
  function : Option ToolFunction := none

/-- `tool_choice`: absent, a string, or a `{type, function:{name}}` object. -/
inductive ToolChoice where
  | undef : ToolChoice
  | tcstr (s : String) : ToolChoice
  | tcfn (ty : String) (fname : Option String) : ToolChoice
deriving DecidableEq

/-- One formatted parameter line of the tool catalog. -/
def paramLine (required : List String) (p : String × ParamDetail) : String :=
  "- \x60" ++ p.1 ++ "\x60 (" ++ jsOrStr p.2.type "unknown" ++ ") - " ++
    (if required.contains p.1 then "**Required**" else "*Optional*") ++ ": " ++
    jsOrStr p.2.description ""

/-- One tool's block of the catalog (`toolInfo.join("\n")`). -/
def toolBlock (f : ToolFunction) : String :=
  let functionName := if f.name = "" then "unknown" else f.name
  let functionDescription := jsOrStr f.description ""
  let header := ["## " ++ functionName, "**Purpose**: " ++ functionDescription]
  let lines :=
    match f.parameters with
    | some ps =>
      match ps.properties with
      | some props =>
        if props.length > 0 then
          header ++ ["**Parameters**:"] ++ props.map (paramLine (ps.required.getD []))
        else header
      | none => header
    | none => header
  String.intercalate "\n" lines

/-- The fixed USAGE INSTRUCTIONS tail of the tool prompt. -/
def usageInstructions : String :=
  "\n\n# USAGE INSTRUCTIONS\n" ++
  "When you need to execute a function, respond ONLY with a JSON object containing tool_calls:\n" ++
  "\x60\x60\x60json\n" ++
  "\x7b\n" ++
  "  \"tool_calls\": [\n" ++
  "    \x7b\n" ++
  "      \"id\": \"call_xxx\",\n" ++
  "      \"type\": \"function\",\n" ++
  "      \"function\": \x7b\n" ++
  "        \"name\": \"function_name\",\n" ++
  "        \"arguments\": \"\x7b\\\"param1\\\": \\\"value1\\\"\x7d\"\n" ++
  "      \x7d\n" ++
  "    \x7d\n" ++
  "  ]\n" ++
  "\x7d\n" ++
  "\x60\x60\x60\n" ++
  "Important: No explanatory text before or after the JSON. The 'arguments' field must be a JSON string, not an object.\n"

/-- `generateToolPrompt` from tools.ts. -/
def generateToolPrompt (tools : List Tool) : String :=
  if tools.length = 0 then ""
  else
    let toolDefinitions := tools.foldr (fun tool acc =>
      if tool.type ≠ "function" then acc
      else
        match tool.function with
        | none => acc
        | some f => toolBlock f :: acc) []
    if toolDefinitions.length = 0 then ""
    else
      "\n\n# AVAILABLE FUNCTIONS\n" ++ String.intercalate "\n\n---\n" toolDefinitions ++
        usageInstructions

/-- Append a directive to the last message when its role is `"user"`. -/
def modLastUser (l : List Message) (hint : String) : List Message :=
  match l.getLast? with
  | some m =>
    if m.role = "user" then
      l.dropLast ++ [{ m with content := .cstr (contentToString m.content ++ hint) }]
    else l
  | none => l

/-- The tool-choice hint step of `processMessagesWithTools`. -/
def applyChoiceHint (processed : List Message) (toolChoice : ToolChoice) : List Message :=
  if toolChoice = .tcstr "required" ∨ toolChoice = .tcstr "auto" then
    modLastUser processed "\n\n请根据需要使用提供的工具函数。"
  else
    match toolChoice with
    | .tcfn ty fname =>
      if ty = "function" then
        match fname with
        | some fn =>
          if fn ≠ "" then modLastUser processed ("\n\n请使用 " ++ fn ++ " 函数来处理这个请求。")
          else processed
        | none => processed
      else processed
    | _ => processed

/-- The final normalization loop of `processMessagesWithTools`: tool/function
roles become assistant messages quoting the result; all other contents are
coerced to strings.  (The source's `typeof toolContent === "object"` branch is
dead — `contentToString` always returns a string — and is omitted; the
`!content.trim()` emptiness check is kept verbatim.) -/
def normalizeFinal (m : Message) : Message :=
  if m.role = "tool" ∨ m.role = "function" then
    let toolName := jsOrStr m.name "unknown"
    let toolContent := contentToString m.content
    let c0 := "工具 " ++ toolName ++ " 返回结果:\n\x60\x60\x60json\n" ++ toolContent ++ "\n\x60\x60\x60"
    let c := if jsTrimS c0 = "" then "工具 " ++ toolName ++ " 执行完成" else c0
    { role := "assistant", content := .cstr c }
  else
    { m with content := .cstr (contentToString m.content) }

/-- `processMessagesWithTools` from tools.ts.  `tools = none` is the absent
(`undefined`) argument; a present empty list is truthy in JS, as in the
source. -/
def processMessagesWithTools (cfg : Config) (messages : List Message)
    (tools : Option (List Tool)) (toolChoice : ToolChoice) : List Message :=
  let processed :=
    if tools.isSome = true ∧ cfg.TOOL_SUPPORT = true ∧ toolChoice ≠ .tcstr "none" then
      let toolsPrompt := generateToolPrompt (tools.getD [])
      let base :=
        if messages.any (fun m => m.role = "system") then
          messages.map (fun m =>
            if m.role = "system" then
              { m with content := .cstr (contentToString m.content ++ toolsPrompt) }
            else m)
        else
          { role := "system", content := .cstr ("你是一个有用的助手。" ++ toolsPrompt) } :: messages
      applyChoiceHint base toolChoice
    else messages
  processed.map normalizeFinal

/-- The fixed thinking instruction template of tools.ts. -/
def thinkingInstruction : String :=
  "\n\n在回答之前，请在 <thinking> 标签中进行思考分析：\n- 仔细分析用户的问题和需求\n- 考虑可能的解决方案和方法\n- 评估答案的准确性和完整性\n- 组织回答的结构和逻辑\n\n然后给出你的最终回答。请确保你的思考过程清晰且有条理。"

/-- The idempotence marker checked before injection. -/
def thinkingMarker : String := "<thinking>"

/-- The search-and-update loop of `addThinkingPromptToMessages`: transform the
first system message (append the instruction unless the marker is present) and
report whether one was found. -/
def addThinkingCore : List Message → List Message × Bool
  | [] => ([], false)
  | m :: rest =>
    if m.role = "system" then
      let ex := contentToString m.content
      ((if strIncludes ex thinkingMarker then m
        else { m with content := .cstr (ex ++ thinkingInstruction) }) :: rest, true)
    else
      let r := addThinkingCore rest
      (m :: r.1, r.2)

/-- `addThinkingPromptToMessages` from tools.ts. -/
def addThinkingPromptToMessages (messages : List Message) : List Message :=
  let r := addThinkingCore messages
  if r.2 then r.1
  else { role := "system", content := .cstr ("你是一个有用的AI助手。" ++ thinkingInstruction) } :: r.1

/-- `processMessagesWithThinking` from tools.ts. -/
def processMessagesWithThinking (cfg : Config) (messages : List Message)
    (tools : Option (List Tool)) (toolChoice : ToolChoice)
    (enableThinking : Bool := true) : List Message :=
  let processedMessages := processMessagesWithTools cfg messages tools toolChoice
  if enableThinking then addThinkingPromptToMessages processedMessages
  else processedMessages

/-! ### The Model Mapping Cache (model_mapper.ts). -/

/-- A mapping's optional feature flags. -/
structure Features where
  enable_thinking : Option Bool := none
  web_search : Option Bool := none
  auto_web_search : Option Bool := none

/-- One model mapping record. -/
structure ModelMapping where
  displayName : String
  upstreamModelId : String
  upstreamModelName : String
  features : Features := {}
  mcpServers : Option (List String) := none
  ownedBy : Option String := none
  isBuiltin : Bool
  description : Option String := none

/-- `BUILTIN_MODEL_MAPPINGS`, built like the source's object literal with
computed keys (later duplicate keys overwrite, via `recInsert`). -/
def builtinObj (cfg : Config) : List (String × ModelMapping) :=
  let step := fun (acc : List (String × ModelMapping)) (p : String × ModelMapping) =>
    recInsert acc p.1 p.2
  [ (cfg.PRIMARY_MODEL,
      { displayName := cfg.PRIMARY_MODEL, upstreamModelId := "0727-360B-API",
        upstreamModelName := "GLM-4.5", ownedBy := some "z.ai", isBuiltin := true,
        description := some "GLM-4.5 基础模型" }),
    (cfg.THINKING_MODEL,
      { displayName := cfg.THINKING_MODEL, upstreamModelId := "0727-360B-API",
        upstreamModelName := "GLM-4.5-Thinking",
        features := { enable_thinking := some true },
        ownedBy := some "z.ai", isBuiltin := true,
        description := some "GLM-4.5 思维链模型" }),
    (cfg.SEARCH_MODEL,
      { displayName := cfg.SEARCH_MODEL, upstreamModelId := "0727-360B-API",
        upstreamModelName := "GLM-4.5-Search",
        features := { web_search := some true, auto_web_search := some true },
        mcpServers := some ["deep-web-search"],
        ownedBy := some "z.ai", isBuiltin := true,
        description := some "GLM-4.5 搜索增强模型" }),
    (cfg.AIR_MODEL,
      { displayName := cfg.AIR_MODEL, upstreamModelId := "0727-106B-API",
        upstreamModelName := "GLM-4.5-Air", ownedBy := some "z.ai", isBuiltin := true,
        description := some "GLM-4.5 轻量级模型" }),
    (cfg.PRIMARY_MODEL_NEW,
      { displayName := cfg.PRIMARY_MODEL_NEW, upstreamModelId := "GLM-4-6-API-V1",
        upstreamModelName := "GLM-4.6", ownedBy := some "z.ai", isBuiltin := true,
        description := some "GLM-4.6 基础模型" }),
    (cfg.THINKING_MODEL_NEW,
      { displayName := cfg.THINKING_MODEL_NEW, upstreamModelId := "GLM-4-6-API-V1",
        upstreamModelName := "GLM-4.6-Thinking",
        features := { enable_thinking := some true },
        ownedBy := some "z.ai", isBuiltin := true,
        description := some "GLM-4.6 思维链模型" }),
    (cfg.SEARCH_MODEL_NEW,
      { displayName := cfg.SEARCH_MODEL_NEW, upstreamModelId := "GLM-4-6-API-V1",
        upstreamModelName := "GLM-4.6-Search",
        features := { web_search := some true, auto_web_search := some true },
        mcpServers := some ["deep-web-search"],
        ownedBy := some "z.ai", isBuiltin := true,
        description := some "GLM-4.6 搜索增强模型" }) ].foldl step []

/-- An observed upstream model (`ZAIModel`, the fields the mapper reads). -/
structure ZAIModel where
  id : String
  name : Option String := none
  display_name : Option String := none
  owned_by : Option String := none

/-- The mutable state of `ModelMappingManager`. -/
structure MapperState where
  dynamicMappings : List (String × ModelMapping)
  lastUpdateTime : Int

/-- The manager's initial state (fresh instance at module load). -/
def mapperInit : MapperState := { dynamicMappings := [], lastUpdateTime := 0 }

/-- `UPDATE_INTERVAL` (the five-minute TTL), in milliseconds. -/
def UPDATE_INTERVAL : Int := 5 * 60 * 1000

/-- The partial mapping argument of `addDynamicMapping`. -/
structure PartialMapping where
  displayName : Option String := none
  upstreamModelId : Option String := none
  upstreamModelName : Option String := none
  features : Option Features := none
  mcpServers : Option (List String) := none
  ownedBy : Option String := none
  description : Option String := none

/-- `addDynamicMapping`: complete the record with the source's `||` defaults
and assign it under `modelId`. -/
def addDynamicMapping (dyn : List (String × ModelMapping)) (modelId : String)
    (m : PartialMapping) : List (String × ModelMapping) :=
  recInsert dyn modelId
    { displayName := jsOrStr m.displayName modelId,
      upstreamModelId := jsOrStr m.upstreamModelId modelId,
      upstreamModelName := jsOrStr m.upstreamModelName modelId,
      features := m.features.getD {},
      mcpServers := some (m.mcpServers.getD []),
      ownedBy := some (jsOrStr m.ownedBy "z.ai"),
      isBuiltin := false,
      description := some (jsOrStr m.description ("动态模型: " ++ modelId)) }

/-- `updateFromZAIModels`: TTL gate, then a wholesale rebuild of the dynamic
set skipping ids that are a builtin upstream id or a builtin key.  `now`
stands for `Date.now()`. -/
def updateFromZAIModels (cfg : Config) (st : MapperState) (now : Int)
    (zaiModels : List ZAIModel) : MapperState :=
  if now - st.lastUpdateTime < UPDATE_INTERVAL then st
  else
    let mappedUpstreamIds := (builtinObj cfg).map (fun p => p.2.upstreamModelId)
    let dyn := zaiModels.foldl (fun acc model =>
      if mappedUpstreamIds.contains model.id then acc
      else if (recLookup (builtinObj cfg) model.id).isSome then acc
      else
        addDynamicMapping acc model.id
          { displayName := some (jsOrStr model.name (jsOrStr model.display_name model.id)),
            upstreamModelId := some model.id,
            upstreamModelName := some (jsOrStr model.name (jsOrStr model.display_name model.id)),
            ownedBy := some (jsOrStr model.owned_by "z.ai"),
            description := some ("Z.AI模型: " ++ jsOrStr model.name model.id) }) []
    { dynamicMappings := dyn, lastUpdateTime := now }

/-- `getMappings`: the spread `{...BUILTIN_MODEL_MAPPINGS, ...dynamic}` —
builtin bindings inserted first, dynamic bindings overwrite on key
collision. -/
def getMappings (cfg : Config) (st : MapperState) : List (String × ModelMapping) :=
  st.dynamicMappings.foldl (fun acc p => recInsert acc p.1 p.2) (builtinObj cfg)

/-- `getMappingByModelId`: `allMappings[modelId] || null`. -/
def getMappingByModelId (cfg : Config) (st : MapperState) (modelId : String) :
    Option ModelMapping :=
  recLookup (getMappings cfg st) modelId

/-- A sequence of `updateFromZAIModels` calls (each with its `Date.now()` and
observed model list) applied to a state. -/
def applyUpdates (cfg : Config) (st : MapperState) (ops : List (Int × List ZAIModel)) :
    MapperState :=
  ops.foldl (fun s op => updateFromZAIModels cfg s op.1 op.2) st

/-! ### The /chat/completions upstream request construction (openai.ts). -/

/-- The features object of an upstream request. -/
structure UpstreamFeatures where
  enable_thinking : Bool
  web_search : Bool
  auto_web_search : Bool

/-- The upstream configuration `getUpstreamConfig` hands the router. -/
structure UpstreamCfg where
  upstreamModelId : String
  upstreamModelName : String
  features : Features
  mcpServers : List String

/-- `getUpstreamConfig` from model_mapper.ts. -/
def getUpstreamConfig (cfg : Config) (st : MapperState) (requestedModelId : String) :
    Option UpstreamCfg :=
  (getMappingByModelId cfg st requestedModelId).map (fun m =>
    { upstreamModelId := m.upstreamModelId, upstreamModelName := m.upstreamModelName,
      features := m.features, mcpServers := m.mcpServers.getD [] })

/-- The upstream request as built by the router (fields driven by the
embedded core; the id/datetime template plumbing is carried as parameters). -/
structure UpstreamRequest where
  stream : Bool
  chat_id : String
  id : String
  model : String
  messages : List Message
  features : UpstreamFeatures
  mcp_servers : List String
  model_item_name : String

/-- The request construction of the `/chat/completions` handler for a request
that resolved `ucfg` and reaches the upstream call: thinking-enabled message
processing, string coercion of every content, and the hardcoded
`enable_thinking: true` with only `web_search`/`auto_web_search` read from the
mapping (`features.web_search || false`). -/
def buildUpstreamRequest (cfg : Config) (chatId msgId : String)
    (reqMessages : List Message) (tools : Option (List Tool))
    (toolChoice : ToolChoice) (ucfg : UpstreamCfg) : UpstreamRequest :=
  let processedMessages := processMessagesWithThinking cfg reqMessages tools toolChoice true
  let upstreamMessages := processedMessages.map (fun msg =>
    { role := msg.role, content := .cstr (contentToString msg.content),
      reasoning_content := msg.reasoning_content : Message })
  { stream := true, chat_id := chatId, id := msgId,
    model := ucfg.upstreamModelId,
    messages := upstreamMessages,
    features := { enable_thinking := true,
                  web_search := ucfg.features.web_search.getD false,
                  auto_web_search := ucfg.features.auto_web_search.getD false },
    mcp_servers := ucfg.mcpServers,
    model_item_name := ucfg.upstreamModelName }

/-! ## Claim theorems -/

/-- No dynamic key ever collides with a builtin key. -/
def DynAvoidsBuiltin (cfg : Config) (st : MapperState) : Prop :=
  ∀ p ∈ st.dynamicMappings, (recLookup (builtinObj cfg) p.1).isSome = false

theorem dynAvoids_update (cfg : Config) (st : MapperState) (now : Int)
    (ms : List ZAIModel) (h : DynAvoidsBuiltin cfg st) :
    DynAvoidsBuiltin cfg (updateFromZAIModels cfg st now ms) := by
  unfold updateFromZAIModels
  by_cases httl : now - st.lastUpdateTime < UPDATE_INTERVAL
  · rw [if_pos httl]; exact h
  · rw [if_neg httl]
    intro p hp
    simp only at hp
    -- induction over the rebuild fold, generalizing the accumulator
    suffices hgen : ∀ (l : List ZAIModel) (acc : List (String × ModelMapping)),
        (∀ q ∈ acc, (recLookup (builtinObj cfg) q.1).isSome = false) →
        ∀ q ∈ l.foldl (fun acc model =>
          if ((builtinObj cfg).map (fun p => p.2.upstreamModelId)).contains model.id then acc
          else if (recLookup (builtinObj cfg) model.id).isSome then acc
          else
            addDynamicMapping acc model.id
              { displayName := some (jsOrStr model.name (jsOrStr model.display_name model.id)),
                upstreamModelId := some model.id,
                upstreamModelName :=
                  some (jsOrStr model.name (jsOrStr model.display_name model.id)),
                ownedBy := some (jsOrStr model.owned_by "z.ai"),
                description := some ("Z.AI模型: " ++ jsOrStr model.name model.id) }) acc,
          (recLookup (builtinObj cfg) q.1).isSome = false by
      exact hgen ms [] (by intro q hq; simp at hq) p hp
    intro l
    induction l with
    | nil => intro acc hacc q hq; exact hacc q hq
    | cons model rest ih =>
      intro acc hacc q hq
      simp only [List.foldl_cons] at hq
      by_cases h1 : ((builtinObj cfg).map (fun p => p.2.upstreamModelId)).contains model.id
      · rw [if_pos h1] at hq; exact ih acc hacc q hq
      · rw [if_neg h1] at hq
        by_cases h2 : (recLookup (builtinObj cfg) model.id).isSome = true
        · rw [if_pos h2] at hq; exact ih acc hacc q hq
        · rw [if_neg h2] at hq
          refine ih _ ?_ q hq
          intro q' hq'
          rcases mem_recInsert hq' with hmem | hkey
          · exact hacc q' hmem
          · rw [hkey]
            exact Bool.eq_false_iff.mpr h2

theorem dynAvoids_applyUpdates (cfg : Config) (st : MapperState)
    (ops : List (Int × List ZAIModel)) (h : DynAvoidsBuiltin cfg st) :
    DynAvoidsBuiltin cfg (applyUpdates cfg st ops) := by
  induction ops generalizing st with
  | nil => simpa [applyUpdates] using h
  | cons op rest ih =>
    have hstep : applyUpdates cfg st (op :: rest) =
        applyUpdates cfg (updateFromZAIModels cfg st op.1 op.2) rest := by
      simp [applyUpdates]
    rw [hstep]
    exact ih _ (dynAvoids_update cfg st op.1 op.2 h)

theorem recLookup_merge_of_avoid {b dyn : List (String × ModelMapping)} {k : String}
    (h : ∀ p ∈ dyn, p.1 ≠ k) :
    recLookup (dyn.foldl (fun acc p => recInsert acc p.1 p.2) b) k = recLookup b k := by
  induction dyn generalizing b with
  | nil => rfl
  | cons q rest ih =>
    simp only [List.foldl_cons]
    rw [ih (fun p hp => h p (List.mem_cons_of_mem _ hp))]
    exact recLookup_recInsert_ne b q.1 k q.2 (h q (List.mem_cons_self _ _))

/-- C2: after any sequence of refresh operations starting from the initial
manager state, resolving a builtin model id returns exactly the builtin
configuration — the dynamic set never shadows a builtin entry. -/
theorem builtin_resolution_stable (cfg : Config) (ops : List (Int × List ZAIModel))
    (k : String) (h : (recLookup (builtinObj cfg) k).isSome = true) :
    getMappingByModelId cfg (applyUpdates cfg mapperInit ops) k =
      recLookup (builtinObj cfg) k := by
  have hinv : DynAvoidsBuiltin cfg (applyUpdates cfg mapperInit ops) := by
    refine dynAvoids_applyUpdates cfg mapperInit ops ?_
    intro p hp; simp [mapperInit] at hp
  unfold getMappingByModelId getMappings
  refine recLookup_merge_of_avoid ?_
  intro p hp hk
  have := hinv p hp
  rw [hk, h] at this
  exact Bool.true_eq_false.mp this

/-- A concrete configuration used by the witnesses. -/
def cfgW : Config where
  TOOL_SUPPORT := true
  SCAN_LIMIT := 200000
  PRIMARY_MODEL := "GLM-4.5"
  THINKING_MODEL := "GLM-4.5-Thinking"
  SEARCH_MODEL := "GLM-4.5-Search"
  AIR_MODEL := "GLM-4.5-Air"
  PRIMARY_MODEL_NEW := "GLM-4.6"
  THINKING_MODEL_NEW := "GLM-4.6-Thinking"
  SEARCH_MODEL_NEW := "GLM-4.6-Search"

/-- Witness for C2 at a refresh sequence that actually installs a dynamic
mapping. -/
theorem builtin_resolution_stable_witness :
    (recLookup (builtinObj cfgW) "GLM-4.5").isSome = true ∧
      getMappingByModelId cfgW
        (applyUpdates cfgW mapperInit
          [(500000, [{ id := "glm-new-experimental", name := some "GLM New" }])])
        "GLM-4.5" = recLookup (builtinObj cfgW) "GLM-4.5" :=
  ⟨by decide, builtin_resolution_stable cfgW _ "GLM-4.5" (by decide)⟩

/-- C4: a second `updateFromZAIModels` call strictly within the five-minute
TTL of a previous successful refresh is a no-op: the whole state (dynamic set
and `lastUpdateTime`) is returned unchanged, for every observed model list. -/
theorem refresh_within_ttl_noop (cfg : Config) (st : MapperState) (t1 t2 : Int)
    (ms1 ms2 : List ZAIModel)
    (h1 : ¬(t1 - st.lastUpdateTime < UPDATE_INTERVAL))
    (h2 : t2 - t1 < UPDATE_INTERVAL) :
    updateFromZAIModels cfg (updateFromZAIModels cfg st t1 ms1) t2 ms2 =
      updateFromZAIModels cfg st t1 ms1 := by
  have hlast : (updateFromZAIModels cfg st t1 ms1).lastUpdateTime = t1 := by
    unfold updateFromZAIModels
    rw [if_neg h1]
  conv_lhs => rw [updateFromZAIModels]
  rw [hlast, if_pos h2]

/-- Witness for C4 at concrete instants `300000` and `300001`. -/
theorem refresh_within_ttl_noop_witness :
    ¬((300000 : Int) - mapperInit.lastUpdateTime < UPDATE_INTERVAL) ∧
      ((300001 : Int) - 300000 < UPDATE_INTERVAL) ∧
      updateFromZAIModels cfgW
          (updateFromZAIModels cfgW mapperInit 300000
            [{ id := "glm-new-experimental", name := some "GLM New" }])
          300001 [{ id := "other-model" }] =
        updateFromZAIModels cfgW mapperInit 300000
          [{ id := "glm-new-experimental", name := some "GLM New" }] :=
  ⟨by decide, by decide,
    refresh_within_ttl_noop cfgW mapperInit 300000 300001 _ _ (by decide) (by decide)⟩

theorem str_data_append (s t : String) : (s ++ t).data = s.data ++ t.data := by
  cases s; cases t; rfl

theorem listHasInfix_append_left {sub l2 : List Char} (l1 : List Char)
    (h : listHasInfix sub l2 = true) : listHasInfix sub (l1 ++ l2) = true := by
  induction l1 with
  | nil => simpa using h
  | cons c rest ih =>
    simp only [List.cons_append, listHasInfix, Bool.or_eq_true]
    exact Or.inr ih

theorem marker_in_instruction :
    listHasInfix thinkingMarker.data thinkingInstruction.data = true := by decide

theorem includes_marker_of_append (x : String) :
    strIncludes (x ++ thinkingInstruction) thinkingMarker = true := by
  unfold strIncludes
  rw [str_data_append]
  exact listHasInfix_append_left x.data marker_in_instruction

theorem addThinkingCore_notFound {msgs r : List Message}
    (h : addThinkingCore msgs = (r, false)) : r = msgs := by
  induction msgs generalizing r with
  | nil => simpa [addThinkingCore] using (congrArg Prod.fst h).symm
  | cons m rest ih =>
    by_cases hr : m.role = "system"
    · simp only [addThinkingCore, if_pos hr] at h
      exact absurd (congrArg Prod.snd h) (by simp)
    · simp only [addThinkingCore, if_neg hr] at h
      have h1 := congrArg Prod.fst h
      have h2 := congrArg Prod.snd h
      simp only at h1 h2
      have hrest : addThinkingCore rest = ((addThinkingCore rest).1, false) := by
        rw [← h2]
      rw [← h1, ih hrest]

theorem addThinkingCore_found {msgs r : List Message}
    (h : addThinkingCore msgs = (r, true)) : addThinkingCore r = (r, true) := by
  induction msgs generalizing r with
  | nil => exact absurd (congrArg Prod.snd h) (by simp [addThinkingCore])
  | cons m rest ih =>
    by_cases hr : m.role = "system"
    · have h1 : (if strIncludes (contentToString m.content) thinkingMarker then m
          else { m with
            content := CVal.cstr (contentToString m.content ++ thinkingInstruction) }) ::
            rest = r := by
        have := congrArg Prod.fst h
        simpa [addThinkingCore, hr] using this
      subst h1
      by_cases hinc : strIncludes (contentToString m.content) thinkingMarker = true
      · rw [if_pos hinc]
        simp [addThinkingCore, hr, hinc]
      · rw [if_neg hinc]
        simp [addThinkingCore, hr, contentToString, includes_marker_of_append]
    · have h1 : m :: (addThinkingCore rest).1 = r := by
        have := congrArg Prod.fst h
        simpa [addThinkingCore, hr] using this
      have h2 : (addThinkingCore rest).2 = true := by
        have := congrArg Prod.snd h
        simpa [addThinkingCore, hr] using this
      have hrest : addThinkingCore rest = ((addThinkingCore rest).1, true) := by
        rw [← h2]
      have hih := ih hrest
      subst h1
      simp [addThinkingCore, hr, hih]

/-- C6: `addThinkingPromptToMessages` is idempotent — the `<thinking>` marker
check stops a second injection. -/
theorem addThinkingPrompt_idempotent (messages : List Message) :
    addThinkingPromptToMessages (addThinkingPromptToMessages messages) =
      addThinkingPromptToMessages messages := by
  have key : ∀ (l r : List Message), addThinkingCore l = (r, true) →
      addThinkingPromptToMessages r = r := by
    intro l r h
    have h2 := addThinkingCore_found h
    unfold addThinkingPromptToMessages
    simp [h2]
  cases hc : addThinkingCore messages with
  | mk r found =>
    cases found with
    | true =>
      have houter : addThinkingPromptToMessages messages = r := by
        unfold addThinkingPromptToMessages
        simp [hc]
      rw [houter, key messages r hc]
    | false =>
      have houter : addThinkingPromptToMessages messages =
          { role := "system",
            content := CVal.cstr ("你是一个有用的AI助手。" ++ thinkingInstruction) } :: r := by
        unfold addThinkingPromptToMessages
        simp [hc]
      have hnew : addThinkingCore
          (({ role := "system",
              content := CVal.cstr ("你是一个有用的AI助手。" ++ thinkingInstruction) } : Message)
            :: r) =
          (({ role := "system",
              content := CVal.cstr ("你是一个有用的AI助手。" ++ thinkingInstruction) } : Message)
            :: r, true) := by
        simp [addThinkingCore, contentToString, includes_marker_of_append]
      rw [houter, key _ _ hnew]

/-- C8: with no tools supplied, the feature flag off, or `tool_choice`
`"none"`, `processMessagesWithTools` only performs the final role/content
normalization: no system message is synthesized, no tool catalog and no
tool-choice directive is appended. -/
theorem passthrough_when_tools_disabled (cfg : Config) (messages : List Message)
    (tools : Option (List Tool)) (toolChoice : ToolChoice)
    (h : tools = none ∨ cfg.TOOL_SUPPORT = false ∨ toolChoice = ToolChoice.tcstr "none") :
    processMessagesWithTools cfg messages tools toolChoice =
      messages.map normalizeFinal := by
  unfold processMessagesWithTools
  have hcond : ¬(tools.isSome = true ∧ cfg.TOOL_SUPPORT = true ∧
      toolChoice ≠ ToolChoice.tcstr "none") := by
    rintro ⟨h1, h2, h3⟩
    rcases h with h | h | h
    · rw [h] at h1; simp at h1
    · rw [h] at h2; simp at h2
    · exact h3 h
  rw [if_neg hcond]

/-- Witness for C8: a user message and a tool message pass through with only
the normalization applied. -/
theorem passthrough_when_tools_disabled_witness :
    processMessagesWithTools cfgW
        [{ role := "user", content := CVal.cstr "hi" },
         { role := "tool", content := CVal.cstr "42", name := some "calc" }]
        none ToolChoice.undef =
      ([{ role := "user", content := CVal.cstr "hi" },
        { role := "tool", content := CVal.cstr "42", name := some "calc" }].map
          normalizeFinal) :=
  passthrough_when_tools_disabled cfgW _ none ToolChoice.undef (Or.inl rfl)

/-- C9 (failing input): a tool message with empty result content is rewritten
to the formatted quote block with an empty JSON body, not to the
`工具 ... 执行完成` placeholder — the `!content.trim()` check tests the already
formatted block, which is never blank. -/
theorem tool_result_placeholder_unreachable :
    processMessagesWithTools cfgW
        [{ role := "tool", content := CVal.cstr "", name := some "get_weather" }]
        none ToolChoice.undef =
      [{ role := "assistant",
         content := CVal.cstr "工具 get_weather 返回结果:\n\x60\x60\x60json\n\n\x60\x60\x60" }] ∧
      "工具 get_weather 返回结果:\n\x60\x60\x60json\n\n\x60\x60\x60" ≠ "工具 get_weather 执行完成" :=
  ⟨rfl, by decide⟩

theorem addThinkingCore_found_marker {msgs r : List Message}
    (h : addThinkingCore msgs = (r, true)) :
    ∃ m ∈ r, m.role = "system" ∧
      strIncludes (contentToString m.content) thinkingMarker = true := by
  induction msgs generalizing r with
  | nil => exact absurd (congrArg Prod.snd h) (by simp [addThinkingCore])
  | cons m rest ih =>
    by_cases hr : m.role = "system"
    · have h1 : (if strIncludes (contentToString m.content) thinkingMarker then m
          else { m with
            content := CVal.cstr (contentToString m.content ++ thinkingInstruction) }) ::
            rest = r := by
        have := congrArg Prod.fst h
        simpa [addThinkingCore, hr] using this
      subst h1
      by_cases hinc : strIncludes (contentToString m.content) thinkingMarker = true
      · rw [if_pos hinc]
        exact ⟨m, List.mem_cons_self _ _, hr, hinc⟩
      · rw [if_neg hinc]
        refine ⟨_, List.mem_cons_self _ _, hr, ?_⟩
        simpa [contentToString] using
          includes_marker_of_append (contentToString m.content)
    · have h1 : m :: (addThinkingCore rest).1 = r := by
        have := congrArg Prod.fst h
        simpa [addThinkingCore, hr] using this
      have h2 : (addThinkingCore rest).2 = true := by
        have := congrArg Prod.snd h
        simpa [addThinkingCore, hr] using this
      have hrest : addThinkingCore rest = ((addThinkingCore rest).1, true) := by
        rw [← h2]
      obtain ⟨m', hm', hrole', hmark'⟩ := ih hrest
      exact ⟨m', h1 ▸ List.mem_cons_of_mem _ hm', hrole', hmark'⟩

theorem thinking_marker_present (msgs : List Message) :
    ∃ m ∈ addThinkingPromptToMessages msgs, m.role = "system" ∧
      strIncludes (contentToString m.content) thinkingMarker = true := by
  unfold addThinkingPromptToMessages
  cases hc : addThinkingCore msgs with
  | mk r found =>
    cases found with
    | true =>
      simp only [if_pos rfl]
      exact addThinkingCore_found_marker hc
    | false =>
      simp only [Bool.false_eq_true, if_false]
      refine ⟨_, List.mem_cons_self _ _, rfl, ?_⟩
      simpa [contentToString] using includes_marker_of_append "你是一个有用的AI助手。"

/-- C10: every upstream request built by the chat-completions handler has
`features.enable_thinking` hardcoded to `true` (whatever the mapping's own
`enable_thinking` flag says), takes only `web_search`/`auto_web_search` from
the mapping, and carries a system message with the thinking marker in the
processed message list. -/
theorem upstream_request_thinking_forced (cfg : Config) (chatId msgId : String)
    (reqMessages : List Message) (tools : Option (List Tool))
    (toolChoice : ToolChoice) (ucfg : UpstreamCfg) :
    (buildUpstreamRequest cfg chatId msgId reqMessages tools toolChoice
        ucfg).features.enable_thinking = true ∧
    (buildUpstreamRequest cfg chatId msgId reqMessages tools toolChoice
        ucfg).features.web_search = ucfg.features.web_search.getD false ∧
    (buildUpstreamRequest cfg chatId msgId reqMessages tools toolChoice
        ucfg).features.auto_web_search = ucfg.features.auto_web_search.getD false ∧
    ∃ m ∈ (buildUpstreamRequest cfg chatId msgId reqMessages tools toolChoice
        ucfg).messages,
      m.role = "system" ∧ ∃ s, m.content = CVal.cstr s ∧
        strIncludes s thinkingMarker = true := by
  refine ⟨rfl, rfl, rfl, ?_⟩
  obtain ⟨m, hm, hrole, hmark⟩ :=
    thinking_marker_present (processMessagesWithTools cfg reqMessages tools toolChoice)
  refine ⟨{ role := m.role, content := CVal.cstr (contentToString m.content),
            reasoning_content := m.reasoning_content }, ?_, hrole,
          contentToString m.content, rfl, hmark⟩
  unfold buildUpstreamRequest processMessagesWithThinking
  simp only [if_pos rfl]
  exact List.mem_map_of_mem _ hm

/-- C1 (failing input): on a text whose only extractable content is a single
occurrence of the localized call pattern, `String.match` with the global
regex returns full matches without capture groups, `naturalLangMatch[1]` is
undefined, and the `.trim()` call throws a TypeError that escapes
`extractToolInvocations` — no try/catch covers it. -/
theorem extract_throws_on_single_pattern :
    extractToolInvocations cfgW 0 "调用函数: alpha 参数: \x7b\"a\": 2\x7d" =
      .error "TypeError: undefined has no method trim" := rfl

/-- C7 (failing input): the documented natural-language fallback never fires;
on a text matching `调用函数: <name> 参数: <json>` once, the function throws
instead of synthesizing the tool call. -/
theorem natural_language_fallback_throws :
    extractToolInvocations cfgW 0 "请稍等，调用函数: get_weather 参数: \x7b\"city\": \"北京\"\x7d" =
      .error "TypeError: undefined has no method trim" := rfl

/-- The property C3 claims of EVERY returned entry: the call's
`function.arguments` exists and is a string. -/
def claimArgsString (tc : JVal) : Bool :=
  match jsGet tc "function" with
  | some f =>
    match jsGet f "arguments" with
    | some (.str _) => true
    | _ => false
  | none => false

/-- C3 counterexample: an inline tool_calls object whose `arguments` is the
(falsy) number `0` is returned with `arguments` still a number — the
`if (func.arguments)` truthiness guard skips the JSON-encoding. -/
theorem args_not_always_string_counterexample :
    extractToolInvocations cfgW 0
        "\x7b\"tool_calls\":[\x7b\"function\":\x7b\"name\":\"f\",\"arguments\":0\x7d\x7d]\x7d" =
      .ok (some [JVal.obj [("function",
        JVal.obj [("name", .str "f"), ("arguments", .num 0)])]]) ∧
      ([JVal.obj [("function",
        JVal.obj [("name", .str "f"), ("arguments", .num 0)])]].all claimArgsString) = false :=
  ⟨rfl, rfl⟩

/-- The normalization guarantee the code actually gives one entry: IF the
entry's `function` is truthy and carries a truthy `arguments`, that value is a
string. -/
def argOk (tc : JVal) : Bool :=
  match jsGet tc "function" with
  | some f =>
    if truthy f then
      match jsGet f "arguments" with
      | some a => !truthy a || isStrJ a
      | none => true
    else true
  | none => true

theorem argOk_normTc (tc : JVal) : argOk (normTc tc) = true := by
  unfold normTc
  cases hf : jsGet tc "function" with
  | none => simp [argOk, hf]
  | some f =>
    dsimp only
    by_cases htf : truthy f = true
    · rw [if_pos htf]
      cases ha : jsGet f "arguments" with
      | none => simp [argOk, hf, htf, ha]
      | some a =>
        dsimp only
        by_cases hta : truthy a = true
        · rw [if_pos hta]
          by_cases hsa : isStrJ a = true
          · rw [if_pos hsa]
            simp [argOk, hf, htf, ha, hta, hsa]
          · rw [if_neg hsa]
            cases tc with
            | obj fs =>
              cases f with
              | obj gs =>
                simp [argOk, objSetKey, jsGet, recLookup_recInsert_self, truthy, isStrJ]
              | null => simp [jsGet] at ha
              | bool b => simp [jsGet] at ha
              | num n => simp [jsGet] at ha
              | str s => simp [jsGet] at ha
              | arr xs => simp [jsGet] at ha
            | null => simp [jsGet] at hf
            | bool b => simp [jsGet] at hf
            | num n => simp [jsGet] at hf
            | str s => simp [jsGet] at hf
            | arr xs => simp [jsGet] at hf
        · rw [if_neg hta]
          simp [argOk, hf, htf, ha, hta]
    · rw [if_neg htf]
      simp [argOk, hf, htf]

theorem tryToolCallsOf_all {v : JVal} {tcs : List JVal}
    (h : tryToolCallsOf v = some tcs) : tcs.all argOk = true := by
  unfold tryToolCallsOf at h
  cases hv : jsGet v "tool_calls" with
  | none => rw [hv] at h; simp at h
  | some w =>
    rw [hv] at h
    cases w with
    | arr xs =>
      have : xs.map normTc = tcs := by simpa using h
      rw [← this, List.all_map]
      exact List.all_eq_true.mpr (fun tc _ => argOk_normTc tc)
    | null => simp at h
    | bool b => simp at h
    | num n => simp at h
    | str s => simp at h
    | obj fs => simp at h

theorem firstFenceHit_all {cands : List (List Char)} {tcs : List JVal}
    (h : firstFenceHit cands = some tcs) : tcs.all argOk = true := by
  induction cands with
  | nil => simp [firstFenceHit] at h
  | cons cand rest ih =>
    unfold firstFenceHit at h
    cases hp : jsonParse cand with
    | none => simp only [hp] at h; exact ih h
    | some v =>
      simp only [hp] at h
      cases ht : tryToolCallsOf v with
      | none => simp only [ht] at h; exact ih h
      | some tcs' =>
        simp only [ht] at h
        have : tcs' = tcs := by simpa using h
        exact this ▸ tryToolCallsOf_all ht

theorem inlineExtract_all {fuel : Nat} {l : List Char} {tcs : List JVal}
    (h : inlineExtract fuel l = some tcs) : tcs.all argOk = true := by
  induction fuel generalizing l with
  | zero => simp [inlineExtract] at h
  | succ n ih =>
    cases l with
    | nil => simp [inlineExtract] at h
    | cons c rest =>
      unfold inlineExtract at h
      by_cases hc : c = '\x7b'
      · rw [if_pos hc] at h
        cases hs : scanToClose rest 1 false false with
        | none => simp only [hs] at h; exact ih h
        | some p =>
          obtain ⟨body, after⟩ := p
          simp only [hs] at h
          cases hp : jsonParse (c :: body) with
          | none => simp only [hp] at h; exact ih h
          | some v =>
            simp only [hp] at h
            cases ht : tryToolCallsOf v with
            | none => simp only [ht] at h; exact ih h
            | some tcs' =>
              simp only [ht] at h
              have : tcs' = tcs := by simpa using h
              exact this ▸ tryToolCallsOf_all ht
      · rw [if_neg hc] at h; exact ih h

/-- C3 (amended): every entry of a successfully returned tool-call list whose
`function` is truthy and whose `arguments` is truthy has string `arguments`
(objects and other truthy non-strings are JSON-encoded; falsy values pass
through unchanged). -/
theorem extract_normalizes_truthy_args (cfg : Config) (now : Int) (text : String)
    (tcs : List JVal) (h : extractToolInvocations cfg now text = .ok (some tcs)) :
    tcs.all argOk = true := by
  unfold extractToolInvocations at h
  by_cases hemp : text = ""
  · rw [if_pos hemp] at h; simp at h
  · rw [if_neg hemp] at h
    cases hfence : firstFenceHit (fenceMatches ((text.data.take cfg.SCAN_LIMIT).length + 1)
        (text.data.take cfg.SCAN_LIMIT)) with
    | some tcs' =>
      simp only [hfence] at h
      have : tcs' = tcs := by simpa using h
      exact this ▸ firstFenceHit_all hfence
    | none =>
      simp only [hfence] at h
      cases hinl : inlineExtract ((text.data.take cfg.SCAN_LIMIT).length + 1)
          (text.data.take cfg.SCAN_LIMIT) with
      | some tcs' =>
        simp only [hinl] at h
        have : tcs' = tcs := by simpa using h
        exact this ▸ inlineExtract_all hinl
      | none =>
        simp only [hinl] at h
        cases hms : fcpSearch ((text.data.take cfg.SCAN_LIMIT).length + 1)
            (text.data.take cfg.SCAN_LIMIT) with
        | nil => simp only [hms] at h; simp at h
        | cons m0 mrest =>
          simp only [hms] at h
          cases h1 : (m0 :: mrest)[1]? with
          | none => simp only [h1] at h; simp at h
          | some m1 =>
            simp only [h1] at h
            cases h2 : (m0 :: mrest)[2]? with
            | none => simp only [h2] at h; simp at h
            | some m2 =>
              simp only [h2] at h
              cases hp : jsonParse (jsTrim m2) with
              | none => simp only [hp] at h; simp at h
              | some v =>
                simp only [hp] at h
                have hsynth : [JVal.obj [("id", JVal.str ("call_" ++ toString (now * 1000000))),
                    ("type", JVal.str "function"),
                    ("function", JVal.obj [("name", JVal.str ⟨jsTrim m1⟩),
                      ("arguments", JVal.str ⟨jsTrim m2⟩)])]] = tcs := by
                  simpa using h
                rw [← hsynth]
                simp [argOk, jsGet, recLookup, truthy, isStrJ]

/-- Witness for C3's amended theorem: object arguments come back as the
JSON-encoded string. -/
theorem extract_normalizes_truthy_args_witness :
    extractToolInvocations cfgW 0
        "\x7b\"tool_calls\":[\x7b\"function\":\x7b\"name\":\"f\",\"arguments\":\x7b\"a\":1\x7d\x7d\x7d]\x7d" =
      .ok (some [JVal.obj [("function",
        JVal.obj [("name", .str "f"), ("arguments", .str "\x7b\"a\":1\x7d")])]]) ∧
      ([JVal.obj [("function",
        JVal.obj [("name", .str "f"), ("arguments", .str "\x7b\"a\":1\x7d")])]].all argOk) = true :=
  ⟨rfl, extract_normalizes_truthy_args cfgW 0
    "\x7b\"tool_calls\":[\x7b\"function\":\x7b\"name\":\"f\",\"arguments\":\x7b\"a\":1\x7d\x7d\x7d]\x7d"
    _ rfl⟩

/-! ### C5: removeToolJsonContent on a text containing exactly one
tool_calls-carrying JSON object, fenced or brace-balanced inline. -/

/-- A brace-balanced inline JSON object (the balanced scan consumes exactly
the candidate) that parses and carries a top-level `tool_calls` key. -/
def toolJsonB (j : List Char) : Bool :=
  match j with
  | c :: jb =>
    decide (c = '\x7b') && decide (scanToClose jb 1 false false = some (jb, [])) &&
    (match jsonParse j with
     | some v => hasKeyB v "tool_calls"
     | none => false)
  | [] => false

/-- The inline sweep of `removeToolJsonContent` deletes at this position: the
suffix opens with a brace, the balanced scan closes, and the candidate parses
with a top-level `tool_calls` key.  At every other position the sweep copies
the character, so a text contains exactly one inline tool-call JSON object
precisely when exactly one of its suffixes satisfies this. -/
def inlineHit : List Char → Bool
  | [] => false
  | c :: rest =>
    decide (c = '\x7b') &&
    (match scanToClose rest 1 false false with
     | some (body, _) =>
       (match jsonParse (c :: body) with
        | some v => hasKeyB v "tool_calls"
        | none => false)
     | none => false)

theorem fenceClose_eq {l b t a : List Char} (h : fenceClose l = some (b, t, a)) :
    l = b ++ t ++ a := by
  induction l generalizing b t a with
  | nil => simp [fenceClose] at h
  | cons c rest ih =>
    by_cases hc : c = '\x7d'
    · simp only [fenceClose, if_pos hc] at h
      cases hstrip : stripPfx fenceTicks (rest.dropWhile jsWsChar) with
      | some after =>
        simp only [hstrip] at h
        obtain ⟨hb, ht, ha⟩ := by simpa using h
        have h1 : rest.dropWhile jsWsChar = fenceTicks ++ after := stripPfx_eq hstrip
        have h2 : rest.takeWhile jsWsChar ++ rest.dropWhile jsWsChar = rest :=
          List.takeWhile_append_dropWhile _ _
        rw [← hb, ← ht, ← ha]
        conv_lhs => rw [← h2, h1]
        simp
      | none =>
        simp only [hstrip] at h
        cases hrec : fenceClose rest with
        | none => rw [hrec] at h; simp at h
        | some p =>
          obtain ⟨b', t', a'⟩ := p
          rw [hrec] at h
          obtain ⟨hb, ht, ha⟩ := by simpa using h
          rw [← hb, ← ht, ← ha, ih hrec]
          simp
    · simp only [fenceClose, if_neg hc] at h
      cases hrec : fenceClose rest with
      | none => rw [hrec] at h; simp at h
      | some p =>
        obtain ⟨b', t', a'⟩ := p
        rw [hrec] at h
        obtain ⟨hb, ht, ha⟩ := by simpa using h
        rw [← hb, ← ht, ← ha, ih hrec]
        simp

theorem tryFenceAt_eq {l full content after : List Char}
    (h : tryFenceAt l = some (full, content, after)) :
    l = full ++ after ∧ full ≠ [] := by
  unfold tryFenceAt at h
  cases hstrip : stripPfx fenceOpenPat l with
  | none => rw [hstrip] at h; simp at h
  | some r1 =>
    rw [hstrip] at h
    dsimp only at h
    split at h
    · next r3 hdrop =>
        cases hclose : fenceClose r3 with
        | none => rw [hclose] at h; simp at h
        | some p =>
          obtain ⟨body, tailPart, after'⟩ := p
          rw [hclose] at h
          obtain ⟨hfull, _, hafter⟩ := by simpa using h
          constructor
          · have h1 : l = fenceOpenPat ++ r1 := stripPfx_eq hstrip
            have h2 : r1.takeWhile jsWsChar ++ r1.dropWhile jsWsChar = r1 :=
              List.takeWhile_append_dropWhile _ _
            have h3 : r3 = body ++ tailPart ++ after' := fenceClose_eq hclose
            rw [← hfull, ← hafter, h1]
            conv_lhs => rw [← h2, hdrop]
            rw [h3]
            simp
          · rw [← hfull]
            simp [fenceOpenPat, fenceTicks]
    · simp at h

theorem fenceStrip_fuelIrrel : ∀ (f1 f2 : Nat) (l : List Char),
    l.length < f1 → l.length < f2 → fenceStrip f1 l = fenceStrip f2 l := by
  intro f1
  induction f1 with
  | zero => intro f2 l h1 _; omega
  | succ n ih =>
    intro f2 l h1 h2
    cases f2 with
    | zero => omega
    | succ m =>
      cases l with
      | nil => rfl
      | cons c rest =>
        have hrn : rest.length < n := by simp at h1; omega
        have hrm : rest.length < m := by simp at h2; omega
        cases htf : tryFenceAt (c :: rest) with
        | none =>
          simp only [fenceStrip, htf]
          rw [ih m rest hrn hrm]
        | some p =>
          obtain ⟨full, content, after⟩ := p
          obtain ⟨heq, hne⟩ := tryFenceAt_eq htf
          have hlen : after.length < (c :: rest).length := by
            rw [heq]
            cases full with
            | nil => exact absurd rfl hne
            | cons x xs => simp; omega
          simp only [List.length_cons] at hlen
          have han : after.length < n := by omega
          have ham : after.length < m := by omega
          simp only [fenceStrip, htf]
          cases hp : jsonParse content with
          | none => simp only [hp]; rw [ih m after han ham]
          | some v =>
            simp only [hp]
            by_cases hk : hasKeyB v "tool_calls" = true
            · simp only [if_pos hk]
              exact ih m after han ham
            · simp only [if_neg hk]
              rw [ih m after han ham]

theorem fenceStrip_id_noMatch : ∀ (f : Nat) (l : List Char),
    (∀ t ∈ l.tails, tryFenceAt t = none) → fenceStrip f l = l := by
  intro f
  induction f with
  | zero => intro l _; cases l <;> rfl
  | succ n ih =>
    intro l h
    cases l with
    | nil => rfl
    | cons c rest =>
      have hhead : tryFenceAt (c :: rest) = none :=
        h (c :: rest) (by rw [List.tails_cons]; exact List.mem_cons_self _ _)
      simp only [fenceStrip, hhead]
      rw [ih rest (fun t ht => h t (by rw [List.tails_cons]; exact List.mem_cons_of_mem _ ht))]

theorem fenceStrip_copy_noMatch : ∀ (u rest : List Char) (f : Nat),
    (∀ t ∈ u.tails, t ≠ [] → tryFenceAt (t ++ rest) = none) →
    (u ++ rest).length < f → fenceStrip f (u ++ rest) = u ++ fenceStrip f rest := by
  intro u
  induction u with
  | nil => intro rest f _ _; simp
  | cons c u' ih =>
    intro rest f h hlen
    cases f with
    | zero => simp at hlen
    | succ n =>
      have hhead : tryFenceAt (c :: (u' ++ rest)) = none := by
        have := h (c :: u') (by rw [List.tails_cons]; exact List.mem_cons_self _ _) (by simp)
        simpa [List.cons_append] using this
      have h1 : (u' ++ rest).length < n := by simp at hlen ⊢; omega
      have hr1 : rest.length < n := by simp at hlen; omega
      have hr2 : rest.length < n + 1 := by simp at hlen; omega
      simp only [List.cons_append, fenceStrip, hhead, List.append_eq]
      rw [ih rest n
          (fun t ht hne => h t (by rw [List.tails_cons]; exact List.mem_cons_of_mem _ ht) hne) h1,
        fenceStrip_fuelIrrel n (n + 1) rest hr1 hr2]

theorem inlineRemove_fuelIrrel : ∀ (f1 f2 : Nat) (l : List Char),
    l.length < f1 → l.length < f2 → inlineRemove f1 l = inlineRemove f2 l := by
  intro f1
  induction f1 with
  | zero => intro f2 l h1 _; omega
  | succ n ih =>
    intro f2 l h1 h2
    cases f2 with
    | zero => omega
    | succ m =>
      cases l with
      | nil => rfl
      | cons c rest =>
        have hrn : rest.length < n := by simp at h1; omega
        have hrm : rest.length < m := by simp at h2; omega
        by_cases hc : c = '\x7b'
        · simp only [inlineRemove, if_pos hc]
          cases hs : scanToClose rest 1 false false with
          | none => simp only [hs]; rw [ih m rest hrn hrm]
          | some p =>
            obtain ⟨body, after⟩ := p
            have hba : rest = body ++ after := scanToClose_eq hs
            have han : after.length < n := by
              have : after.length ≤ rest.length := by rw [hba]; simp
              omega
            have ham : after.length < m := by
              have : after.length ≤ rest.length := by rw [hba]; simp
              omega
            simp only [hs]
            cases hp : jsonParse (c :: body) with
            | none => simp only [hp]; rw [ih m rest hrn hrm]
            | some v =>
              simp only [hp]
              by_cases hk : hasKeyB v "tool_calls" = true
              · simp only [if_pos hk]
                exact ih m after han ham
              · simp only [if_neg hk]
                rw [ih m rest hrn hrm]
        · simp only [inlineRemove, if_neg hc]
          rw [ih m rest hrn hrm]

theorem inlineRemove_id_noHit : ∀ (f : Nat) (l : List Char),
    (∀ t ∈ l.tails, inlineHit t = false) → inlineRemove f l = l := by
  intro f
  induction f with
  | zero => intro l _; cases l <;> rfl
  | succ n ih =>
    intro l h
    cases l with
    | nil => rfl
    | cons c rest =>
      have hhit : inlineHit (c :: rest) = false :=
        h (c :: rest) (by rw [List.tails_cons]; exact List.mem_cons_self _ _)
      have hrest : ∀ t ∈ rest.tails, inlineHit t = false :=
        fun t ht => h t (by rw [List.tails_cons]; exact List.mem_cons_of_mem _ ht)
      by_cases hc : c = '\x7b'
      · simp only [inlineRemove, if_pos hc]
        cases hs : scanToClose rest 1 false false with
        | none => simp only [hs]; rw [ih rest hrest]
        | some p =>
          obtain ⟨body, after⟩ := p
          simp only [hs]
          cases hp : jsonParse (c :: body) with
          | none => simp only [hp]; rw [ih rest hrest]
          | some v =>
            simp only [hp]
            have hk' : ¬hasKeyB v "tool_calls" = true := by
              have hh := hhit
              simp only [inlineHit, hs, hp] at hh
              simp [hc] at hh
              simp [hh]
            rw [if_neg hk', ih rest hrest]
      · simp only [inlineRemove, if_neg hc]
        rw [ih rest hrest]

theorem inlineRemove_copy_noHit : ∀ (u rest : List Char) (f : Nat),
    (∀ t ∈ u.tails, t ≠ [] → inlineHit (t ++ rest) = false) →
    (u ++ rest).length < f → inlineRemove f (u ++ rest) = u ++ inlineRemove f rest := by
  intro u
  induction u with
  | nil => intro rest f _ _; simp
  | cons c u' ih =>
    intro rest f h hlen
    cases f with
    | zero => simp at hlen
    | succ n =>
      have hhit : inlineHit (c :: (u' ++ rest)) = false := by
        have := h (c :: u') (by rw [List.tails_cons]; exact List.mem_cons_self _ _) (by simp)
        simpa [List.cons_append] using this
      have h1 : (u' ++ rest).length < n := by simp at hlen ⊢; omega
      have hr1 : rest.length < n := by simp at hlen; omega
      have hr2 : rest.length < n + 1 := by simp at hlen; omega
      have hrec : inlineRemove n (u' ++ rest) = u' ++ inlineRemove n rest :=
        ih rest n
          (fun t ht hne => h t (by rw [List.tails_cons]; exact List.mem_cons_of_mem _ ht) hne) h1
      simp only [List.cons_append]
      by_cases hc : c = '\x7b'
      · simp only [inlineRemove, if_pos hc, List.append_eq]
        cases hs : scanToClose (u' ++ rest) 1 false false with
        | none =>
          simp only [hs]
          rw [hrec, inlineRemove_fuelIrrel n (n + 1) rest hr1 hr2]
        | some p =>
          obtain ⟨body, after⟩ := p
          simp only [hs]
          cases hp : jsonParse (c :: body) with
          | none =>
            simp only [hp]
            rw [hrec, inlineRemove_fuelIrrel n (n + 1) rest hr1 hr2]
          | some v =>
            simp only [hp]
            have hk' : ¬hasKeyB v "tool_calls" = true := by
              have hh := hhit
              simp only [inlineHit, hs, hp] at hh
              simp [hc] at hh
              simp [hh]
            rw [if_neg hk', hrec, inlineRemove_fuelIrrel n (n + 1) rest hr1 hr2]
      · simp only [inlineRemove, if_neg hc, List.append_eq]
        rw [hrec, inlineRemove_fuelIrrel n (n + 1) rest hr1 hr2]

theorem inlineRemove_skip_tool (j rest : List Char) (f : Nat)
    (hj : toolJsonB j = true) (hlen : (j ++ rest).length < f) :
    inlineRemove f (j ++ rest) = inlineRemove f rest := by
  cases j with
  | nil => simp [toolJsonB] at hj
  | cons c jb =>
    rw [toolJsonB] at hj
    rw [Bool.and_eq_true, Bool.and_eq_true] at hj
    obtain ⟨⟨hc, hscan⟩, hkey⟩ := hj
    have hc' : c = '\x7b' := by simpa using hc
    subst hc'
    have hscan' : scanToClose jb 1 false false = some (jb, []) := by simpa using hscan
    cases f with
    | zero => simp at hlen
    | succ n =>
      have hscanext : scanToClose (jb ++ rest) 1 false false = some (jb, rest) := by
        have := scanToClose_ext rest hscan'
        simpa using this
      have hrn : rest.length < n := by simp at hlen; omega
      have hrf : rest.length < n + 1 := by simp at hlen; omega
      cases hp : jsonParse ('\x7b' :: jb) with
      | none => rw [hp] at hkey; simp at hkey
      | some v =>
        simp only [hp] at hkey
        simp only [List.cons_append, inlineRemove, List.append_eq, eq_self_iff_true,
          if_true, hscanext, hp, if_pos hkey]
        exact inlineRemove_fuelIrrel n (n + 1) rest hrn hrf

/-- C5: on a text containing exactly one JSON object carrying `tool_calls` —
the left disjunct a brace-balanced inline object, the right disjunct a fenced
block — surrounded by arbitrary other content at whose positions no removal
fires (the formalization of "unrelated prose and possibly an adjacent JSON
object without tool_calls", which may contain braces, nested objects, or
nothing at all, on either side), `removeToolJsonContent` removes exactly the
tool JSON, preserves everything else verbatim, and trims the ends. -/
theorem removeToolJson_strips_exactly (pre X post : List Char)
    (hcase :
      (toolJsonB X = true ∧
        (∀ t ∈ (pre ++ X ++ post).tails, tryFenceAt t = none) ∧
        (∀ t ∈ pre.tails, t ≠ [] → inlineHit (t ++ X ++ post) = false) ∧
        (∀ t ∈ post.tails, inlineHit t = false)) ∨
      ((∃ content v, tryFenceAt (X ++ post) = some (X, content, post) ∧
          jsonParse content = some v ∧ hasKeyB v "tool_calls" = true) ∧
        (∀ t ∈ pre.tails, t ≠ [] → tryFenceAt (t ++ X ++ post) = none) ∧
        (∀ t ∈ post.tails, tryFenceAt t = none) ∧
        (∀ t ∈ (pre ++ post).tails, inlineHit t = false))) :
    removeToolJsonContent ⟨pre ++ X ++ post⟩ = ⟨jsTrim (pre ++ post)⟩ := by
  unfold removeToolJsonContent
  dsimp only
  rcases hcase with ⟨hX, hfence, hpre, hpost⟩ |
    ⟨⟨content, v, htf, hcp, hck⟩, hpreF, hpostF, hinline⟩
  · rw [fenceStrip_id_noMatch _ _ hfence]
    refine congrArg String.mk (congrArg jsTrim ?_)
    simp only [List.append_assoc]
    have hl0 : (pre ++ (X ++ post)).length < (pre ++ (X ++ post)).length + 1 :=
      Nat.lt_succ_self _
    have hl1 : (X ++ post).length < (pre ++ (X ++ post)).length + 1 := by
      simp
      omega
    rw [inlineRemove_copy_noHit pre (X ++ post) _
        (fun t ht hne => by simpa [List.append_assoc] using hpre t ht hne) hl0,
      inlineRemove_skip_tool X post _ hX hl1,
      inlineRemove_id_noHit _ post hpost]
  · have hXne : X ≠ [] := (tryFenceAt_eq htf).2
    have hcleaned :
        fenceStrip ((pre ++ X ++ post).length + 1) (pre ++ X ++ post) = pre ++ post := by
      simp only [List.append_assoc]
      have hl0 : (pre ++ (X ++ post)).length < (pre ++ (X ++ post)).length + 1 :=
        Nat.lt_succ_self _
      rw [fenceStrip_copy_noMatch pre (X ++ post) _
          (fun t ht hne => by simpa [List.append_assoc] using hpreF t ht hne) hl0]
      have hfx : fenceStrip ((pre ++ (X ++ post)).length + 1) (X ++ post) = post := by
        cases X with
        | nil => exact absurd rfl hXne
        | cons c X' =>
          have htf' : tryFenceAt (c :: (X' ++ post)) = some (c :: X', content, post) := by
            simpa [List.cons_append] using htf
          simp only [List.cons_append, List.append_eq, fenceStrip, htf', hcp, if_pos hck]
          exact fenceStrip_id_noMatch _ post hpostF
      rw [hfx]
    rw [hcleaned]
    exact congrArg String.mk (congrArg jsTrim (inlineRemove_id_noHit _ _ hinline))

/-- The concrete pieces of the C5 witness text: prose, a fenced tool-call
JSON block, and adjacent content holding a non-tool JSON object with a
nested object. -/
def c5pre : List Char := "Intro ".data
def c5tool : List Char :=
  "\x60\x60\x60json\n\x7b\"tool_calls\":[\x7b\"id\":\"1\"\x7d]\x7d\n\x60\x60\x60".data
def c5capture : List Char := "\x7b\"tool_calls\":[\x7b\"id\":\"1\"\x7d]\x7d".data
def c5post : List Char := " tail \x7b\"keep\":\x7b\"n\":2\x7d\x7d.".data

set_option maxRecDepth 40000 in
/-- Witness for C5 at a concrete text (fenced disjunct). -/
theorem removeToolJson_strips_exactly_witness :
    removeToolJsonContent ⟨c5pre ++ c5tool ++ c5post⟩ = ⟨jsTrim (c5pre ++ c5post)⟩ :=
  removeToolJson_strips_exactly c5pre c5tool c5post
    (Or.inr ⟨⟨c5capture,
        JVal.obj [("tool_calls", JVal.arr [JVal.obj [("id", JVal.str "1")]])],
        by decide, rfl, rfl⟩,
      by decide, by decide, by decide⟩)

end ZAI
